import Mathlib

/-!
Shallow embedding of the mcp_postgres MCP server (TypeScript sources:
src/utils/response.ts, src/db/pool.ts, src/tools/query.ts,
src/tools/introspection.ts, src/tools/objects.ts) together with proofs
about its request-validation and result-shaping pipeline.

Strings are modelled as Lean `String` / `List Char`; JavaScript string
lengths (UTF-16 code units) coincide with character counts for the
basic-multilingual-plane text handled here.  The two regular expressions
used by the server are modelled by explicit character-level scanners that
implement exactly the semantics of the JavaScript patterns on ASCII input.
-/

namespace McpPostgres

/-- Error taxonomy of the server.  Every handler failure is a thrown
JavaScript `Error`; each throw site is tagged with its spec-level
category (PermissionDenied, InvalidOperation, NotFound). -/
inductive McpError where
  | permissionDenied : String → McpError
  | invalidOperation : String → McpError
  | notFound : String → McpError
deriving DecidableEq

/-- Outcome of a handler body: a returned value or a thrown error. -/
inductive Res (α : Type) where
  | ok : α → Res α
  | err : McpError → Res α
deriving DecidableEq

/-! ### Schema gate (src/db/pool.ts `isSchemaAllowed`, src/utils/response.ts `assertSchemaAllowed`) -/

/-- `isSchemaAllowed` from src/db/pool.ts: an empty allow-list permits every
schema, otherwise exact (case-sensitive) membership is required. -/
def isSchemaAllowed (allowedSchemas : List String) (schema : String) : Bool :=
  if allowedSchemas.length = 0 then true else allowedSchemas.contains schema

/-- Message of the PermissionDenied error (quotes around the schema name in
the original text are omitted). -/
def permissionDeniedMessage (schema : String) : String :=
  "Schema " ++ schema ++ " is not in the allowed schemas list"

/-- `assertSchemaAllowed` from src/utils/response.ts. -/
def assertSchemaAllowed (schema : String) (allowedSchemas : List String) : Res Unit :=
  if allowedSchemas.length > 0 && !(allowedSchemas.contains schema) then
    .err (.permissionDenied (permissionDeniedMessage schema))
  else .ok ()

/-! ### Result packager (src/utils/response.ts `formatResult`) -/

def CHARACTER_LIMIT : Nat := 25000

/-- The truncation notice appended by `formatResult`; `total` is the length
of the full serialized result. -/
def truncationNotice (total : Nat) : String :=
  "\n\n...[RESPUESTA TRUNCADA: " ++ toString total ++
    " chars totales. Usa filtros de columnas, cláusula WHERE o paginación para reducir los resultados.]"

/-- The FormattedResponse of the spec: the outgoing text payload plus the
truncation state (whether the size ceiling was hit). -/
structure FormattedResponse where
  text : String
  truncated : Bool
deriving DecidableEq

/-- `formatResult` from src/utils/response.ts, modelled on the canonical
serialization (the `JSON.stringify(data, null, 2)` output) of the data. -/
def formatResult (text : String) : FormattedResponse :=
  if text.length ≤ CHARACTER_LIMIT then ⟨text, false⟩
  else ⟨String.mk (text.data.take CHARACTER_LIMIT) ++ truncationNotice text.length, true⟩

/-! ### List pagination metadata (src/tools/introspection.ts, src/tools/objects.ts) -/

/-- Pagination metadata included in every list-operation result. -/
structure PageMeta where
  count : Nat
  total : Nat
  offset : Nat
  has_more : Bool
  next_offset : Option Nat
deriving DecidableEq

/-- Result of the paged catalog query: `ORDER BY ... LIMIT $2 OFFSET $3`
over the ordered row list of the schema. -/
def pageRows {α : Type} (rows : List α) (limit offset : Nat) : List α :=
  (rows.drop offset).take limit

/-- The metadata record built by the list handlers: count of rows in this
page, the COUNT(*) total, the requested offset, `has_more`, and
`next_offset` present exactly when more rows remain. -/
def pageMetaOf (total count offset : Nat) : PageMeta :=
  { count := count, total := total, offset := offset,
    has_more := decide (total > offset + count),
    next_offset := if total > offset + count then some (offset + count) else none }

/-- `postgres_list_tables` handler from src/tools/introspection.ts.  The
database is abstracted as the ordered list of base-table rows of the
schema: the COUNT(*) query reports its length and the paged query returns
the OFFSET/LIMIT window of it. -/
def listTables {α : Type} (allowedSchemas : List String) (schema : String)
    (tables : List α) (limit offset : Nat) : Res (PageMeta × List α) :=
  match assertSchemaAllowed schema allowedSchemas with
  | .err e => .err e
  | .ok _ =>
    let total := tables.length
    let page := pageRows tables limit offset
    .ok (pageMetaOf total page.length offset, page)

/-! ### Statement builder and `postgres_query_table` (src/tools/query.ts) -/

/-- `Math.min(Math.max(1, limit), 100)` of the handlers. -/
def safeLimitOf (limit : Nat) : Nat := min (max 1 limit) 100

/-- SQL text built by the `postgres_query_table` handler; the row cap is
passed as bound parameter `$1`.  An empty where-string is treated as
absent, mirroring JavaScript truthiness of `if (where)`. -/
def buildTableQuery (schema table columns : String) (whereClause : Option String) : String :=
  let base := "SELECT " ++ columns ++ " FROM \"" ++ schema ++ "\".\"" ++ table ++ "\""
  let withWhere :=
    match whereClause with
    | some w => if w.isEmpty then base else base ++ " WHERE " ++ w
    | none => base
  withWhere ++ " LIMIT $1"

/-- `postgres_query_table` handler up to the point where the built statement
and its bound cap are handed to the pool: the schema gate runs first, and
on failure no statement is produced. -/
def queryTable (allowedSchemas : List String) (schema table columns : String)
    (whereClause : Option String) (limit : Nat) : Res (String × Nat) :=
  match assertSchemaAllowed schema allowedSchemas with
  | .err e => .err e
  | .ok _ => .ok (buildTableQuery schema table columns whereClause, safeLimitOf limit)

/-! ### `postgres_get_function_definition` (src/tools/objects.ts) -/

/-- Message of the NotFound error (quotes around the names in the original
text are omitted). -/
def notFoundMessage (functionName schema : String) : String :=
  "Function " ++ functionName ++ " not found in schema " ++ schema

/-- `postgres_get_function_definition` handler; `rows` is the result of the
catalog lookup by exact name in the given schema. -/
def getFunctionDefinition {α : Type} (allowedSchemas : List String)
    (schema functionName : String) (rows : List α) : Res α :=
  match assertSchemaAllowed schema allowedSchemas with
  | .err e => .err e
  | .ok _ =>
    match rows with
    | [] => .err (.notFound (notFoundMessage functionName schema))
    | r :: _ => .ok r

/-! ### Character classes of the JavaScript regexes (ASCII fragment) -/

/-- JavaScript `\s` on the ASCII range (space, tab, line feed, carriage
return, vertical tab, form feed); also the whitespace removed by
`String.prototype.trim` on ASCII input. -/
def isJsSpace (c : Char) : Bool :=
  c = ' ' || c = '\t' || c = '\n' || c = '\r' || c = '\x0b' || c = '\x0c'

/-- JavaScript `\w`: ASCII letters, digits and underscore; `\b` holds
between a word char and a non-word char (or the string edge). -/
def isWordChar (c : Char) : Bool := c.isAlpha || c.isDigit || c = '_'

/-- ASCII lower-casing, as performed by `toLowerCase` and by the `i` regex
flag on ASCII letters. -/
def lowerChar (c : Char) : Char :=
  match c with
  | 'A' => 'a' | 'B' => 'b' | 'C' => 'c' | 'D' => 'd' | 'E' => 'e' | 'F' => 'f'
  | 'G' => 'g' | 'H' => 'h' | 'I' => 'i' | 'J' => 'j' | 'K' => 'k' | 'L' => 'l'
  | 'M' => 'm' | 'N' => 'n' | 'O' => 'o' | 'P' => 'p' | 'Q' => 'q' | 'R' => 'r'
  | 'S' => 's' | 'T' => 't' | 'U' => 'u' | 'V' => 'v' | 'W' => 'w' | 'X' => 'x'
  | 'Y' => 'y' | 'Z' => 'z'
  | c => c

/-- Case-insensitive literal match: consumes `p` (given in lowercase) from
the front of the input and returns the rest. -/
def matchCI : List Char → List Char → Option (List Char)
  | [], s => some s
  | _ :: _, [] => none
  | p :: ps, c :: cs => if lowerChar c = p then matchCI ps cs else none

/-- `parseInt` on a run of decimal digits. -/
def digitsToNat (ds : List Char) : Nat :=
  ds.foldl (fun n c => 10 * n + (c.toNat - 48)) 0

/-- `String.prototype.trim` (ASCII fragment). -/
def jsTrim (l : List Char) : List Char :=
  ((l.dropWhile isJsSpace).reverse.dropWhile isJsSpace).reverse

/-! ### The LIMIT regex `\bLIMIT\s+\d+` (src/tools/query.ts lines 90-98) -/

def limitWord : List Char := ['l', 'i', 'm', 'i', 't']

/-- One attempt of `\bLIMIT\s+\d+` (case-insensitive) at the head of `s`;
the word boundary before the head is checked by the caller.  Consumes
LIMIT, a maximal nonempty whitespace run, and a maximal nonempty digit
run, returning the parsed numeric value and the remaining input. -/
def limitMatchHere (s : List Char) : Option (Nat × List Char) :=
  (matchCI limitWord s).bind (fun rest =>
    if (rest.takeWhile isJsSpace).isEmpty then none
    else
      let rest2 := rest.dropWhile isJsSpace
      if (rest2.takeWhile Char.isDigit).isEmpty then none
      else some (digitsToNat (rest2.takeWhile Char.isDigit), rest2.dropWhile Char.isDigit))

/-- Leftmost match of `\bLIMIT\s+\d+` (case-insensitive): returns the text
before the match, the parsed numeric value, and the text after the match.
`pw` records whether the previous character was a word character (false at
the start of the string), implementing the `\b` assertion. -/
def scanLimit (pw : Bool) : List Char → Option (List Char × Nat × List Char)
  | [] => none
  | c :: cs =>
    match if pw then none else limitMatchHere (c :: cs) with
    | some (v, rest) => some ([], v, rest)
    | none =>
      match scanLimit (isWordChar c) cs with
      | some (a, v, rest) => some (c :: a, v, rest)
      | none => none

/-- The numeric values of all matches of `\bLIMIT\s+\d+` in `s`, in order of
position. -/
def limitOccValues (pw : Bool) : List Char → List Nat
  | [] => []
  | c :: cs =>
    (match if pw then none else limitMatchHere (c :: cs) with
     | some (v, _) => [v]
     | none => []) ++ limitOccValues (isWordChar c) cs

/-- LIMIT handling of the `postgres_execute_query` handler: if the trimmed
statement has no `\bLIMIT\s+\d+` match, append `LIMIT safeLimit`;
otherwise replace the first match with `LIMIT min(existing, 100)` (the
replacement text is the literal `LIMIT ` followed by the capped value). -/
def injectLimit (t : List Char) (cap : Nat) : List Char :=
  match scanLimit false t with
  | none => t ++ (" LIMIT " ++ toString (safeLimitOf cap)).data
  | some (a, v, r) => a ++ ("LIMIT " ++ toString (min v 100)).data ++ r

/-! ### The deny-list regex `\bkw\b\s+(into|from|...)\b` (src/tools/query.ts lines 79-85) -/

def forbiddenKeywords : List String :=
  ["insert", "update", "delete", "drop", "alter", "create", "truncate",
   "grant", "revoke", "execute", "copy"]

def contextWords : List String :=
  ["into", "from", "table", "schema", "database", "index", "function",
   "procedure", "trigger", "role", "user", "privileges", "on", "all"]

/-- Auxiliary check that a context word is nonempty and does not start with
whitespace (true of every word in the alternation). -/
def ctxHeadOk (ctx : String) : Bool :=
  match ctx.data with
  | [] => false
  | c :: _ => !isJsSpace c

/-- Attempt to match one alternative `ctx` of the object-context
alternation, followed by the trailing `\b`, at the head of `rest2`. -/
def ctxTailMatch (rest2 : List Char) (ctx : String) : Bool :=
  ((matchCI ctx.data rest2).map (fun rest3 =>
    (rest3.head?.map (fun c => !isWordChar c)).getD true)).getD false

/-- One attempt of `kw\b\s+(into|from|...)\b` (case-insensitive) at the head
of `s`; the `\b` before `kw` is checked by the caller, and the `\b` after
`kw` is subsumed by the mandatory whitespace. -/
def kwCtxHere (kw : List Char) (s : List Char) : Bool :=
  ((matchCI kw s).map (fun rest =>
    if (rest.takeWhile isJsSpace).isEmpty then false
    else contextWords.any (ctxTailMatch (rest.dropWhile isJsSpace)))).getD false

/-- `regex.test` for `\bkw\b\s+(into|from|...)\b` (case-insensitive) on the
raw query text; `pw` tracks the word-character status of the previous
character for the leading `\b`. -/
def scanKwCtx (kw : List Char) (pw : Bool) : List Char → Bool
  | [] => false
  | c :: cs => (!pw && kwCtxHere kw (c :: cs)) || scanKwCtx kw (isWordChar c) cs

/-- The deny-list loop of the `postgres_execute_query` handler: the first
keyword (in list order) whose regex matches the raw query text. -/
def firstForbidden (query : String) : Option String :=
  forbiddenKeywords.find? (fun kw => scanKwCtx kw.data false query.data)

/-! ### `postgres_execute_query` validation pipeline (src/tools/query.ts lines 72-99) -/

/-- Error message of the SELECT/WITH prefix check (exact text of the
source). -/
def selectWithMessage : String :=
  "Solo se permiten consultas SELECT o WITH (CTE). No se permiten INSERT, UPDATE, DELETE, DROP, ALTER, CREATE u otras operaciones de modificación."

/-- Error message of the deny-list check (quotes around the keyword in the
original text are omitted). -/
def forbiddenMessage (kw : String) : String :=
  "Operación no permitida: la query contiene " ++ kw ++
    " seguido de un contexto de modificación. Solo se permiten consultas de lectura (SELECT/WITH)."

/-- `postgres_execute_query` handler up to the point where the final SQL
text is handed to the database connection: prefix check on the trimmed,
lower-cased copy, deny-list scan on the raw query, then LIMIT injection on
the trimmed query.  An `err` result means no SQL reaches the database. -/
def executeQueryPlan (query : String) (limit : Nat) : Res String :=
  let normalized := (jsTrim query.data).map lowerChar
  if !("select".data.isPrefixOf normalized || "with".data.isPrefixOf normalized) then
    .err (.invalidOperation selectWithMessage)
  else
    match firstForbidden query with
    | some kw => .err (.invalidOperation (forbiddenMessage kw))
    | none => .ok (String.mk (injectLimit (jsTrim query.data) limit))

/-! ### Declarative reading of the two regexes

These predicates state, following the spec text, what it means for the
pattern to occur in a string: an occurrence is a decomposition of the
string into the part before the match, the matched pieces, and the part
after the match, with the word-boundary and maximality side conditions of
the regex. -/

/-- The `\b` assertion holding just before a match that is preceded by `a`;
`pw` is the word-character status of the character preceding the scanned
region (false at the start of the string). -/
def boundaryOkBefore (pw : Bool) (a : List Char) : Prop :=
  match a.getLast? with
  | some c => isWordChar c = false
  | none => pw = false

/-- `LimitOcc pw s a v r`: the string `s` decomposes as `a`, then a
case-insensitive `LIMIT`, then nonempty whitespace, then a maximal
nonempty digit run whose value is `v`, then `r`, with a word boundary
before the `L`. -/
def LimitOcc (pw : Bool) (s a : List Char) (v : Nat) (r : List Char) : Prop :=
  boundaryOkBefore pw a ∧
  ∃ k ws ds, s = a ++ (k ++ (ws ++ (ds ++ r))) ∧
    k.map lowerChar = limitWord ∧
    ws ≠ [] ∧ (∀ x ∈ ws, isJsSpace x = true) ∧
    ds ≠ [] ∧ (∀ x ∈ ds, Char.isDigit x = true) ∧
    (∀ x, r.head? = some x → Char.isDigit x = false) ∧
    v = digitsToNat ds

/-- `KwCtxOccurs kw query`: the deny-listed keyword `kw` occurs in the raw
query as a whole word, immediately followed (separated by whitespace) by
one of the object-context words, itself ending at a word boundary. -/
def KwCtxOccurs (kw : String) (query : String) : Prop :=
  ∃ a k ws c r ctx, query.data = a ++ (k ++ (ws ++ (c ++ r))) ∧
    boundaryOkBefore false a ∧
    k.map lowerChar = kw.data ∧
    ws ≠ [] ∧ (∀ x ∈ ws, isJsSpace x = true) ∧
    ctx ∈ contextWords ∧ c.map lowerChar = ctx.data ∧
    (∀ x, r.head? = some x → isWordChar x = false)

/-! ### Basic facts about the character-level scanners -/

theorem head?_dropWhile_nope {α : Type} (p : α → Bool) (l : List α) :
    ∀ x, (l.dropWhile p).head? = some x → p x = false := by
  induction l with
  | nil => simp
  | cons c cs ih =>
    intro x hx
    by_cases h : p c
    · rw [List.dropWhile_cons_of_pos h] at hx
      exact ih x hx
    · rw [List.dropWhile_cons_of_neg h] at hx
      simp only [List.head?_cons, Option.some.injEq] at hx
      subst hx
      exact Bool.eq_false_iff.mpr h

theorem takeWhile_split {α : Type} (p : α → Bool) (xs ys : List α)
    (h1 : ∀ x ∈ xs, p x = true) (h2 : ∀ y, ys.head? = some y → p y = false) :
    (xs ++ ys).takeWhile p = xs ∧ (xs ++ ys).dropWhile p = ys := by
  induction xs with
  | nil =>
    cases ys with
    | nil => simp
    | cons y ys =>
      have hy := h2 y rfl
      simp [List.takeWhile_cons, List.dropWhile_cons, hy]
  | cons x xs ih =>
    have hx : p x = true := h1 x (List.mem_cons_self x xs)
    have ih' := ih (fun a ha => h1 a (List.mem_cons_of_mem x ha))
    constructor
    · simpa [List.takeWhile_cons, hx] using ih'.1
    · simpa [List.dropWhile_cons, hx] using ih'.2

theorem matchCI_append (p t r : List Char) (h : t.map lowerChar = p) :
    matchCI p (t ++ r) = some r := by
  induction t generalizing p with
  | nil =>
    simp only [List.map_nil] at h
    subst h
    simp [matchCI]
  | cons c cs ih =>
    simp only [List.map_cons] at h
    subst h
    simp [matchCI, ih (cs.map lowerChar) rfl]

theorem matchCI_eq_some (p : List Char) :
    ∀ s r : List Char, matchCI p s = some r ↔ ∃ t, s = t ++ r ∧ t.map lowerChar = p := by
  induction p with
  | nil =>
    intro s r
    simp only [matchCI, Option.some.injEq]
    constructor
    · rintro rfl
      exact ⟨[], rfl, rfl⟩
    · rintro ⟨t, rfl, ht⟩
      simp only [List.map_eq_nil_iff] at ht
      simp [ht]
  | cons ph pt ih =>
    intro s r
    cases s with
    | nil =>
      simp only [matchCI]
      constructor
      · intro h
        exact absurd h (by simp)
      · rintro ⟨t, ht, hm⟩
        cases t with
        | nil => simp at hm
        | cons a b => simp at ht
    | cons c cs =>
      simp only [matchCI]
      by_cases hc : lowerChar c = ph
      · rw [if_pos hc, ih cs r]
        constructor
        · rintro ⟨t, rfl, hm⟩
          exact ⟨c :: t, rfl, by simp [hm, hc]⟩
        · rintro ⟨t, ht, hm⟩
          cases t with
          | nil => simp at hm
          | cons a b =>
            simp only [List.cons_append, List.cons.injEq] at ht
            obtain ⟨rfl, rfl⟩ := ht
            simp only [List.map_cons, List.cons.injEq] at hm
            exact ⟨b, rfl, hm.2⟩
      · rw [if_neg hc]
        constructor
        · intro h
          exact absurd h (by simp)
        · rintro ⟨t, ht, hm⟩
          cases t with
          | nil => simp at hm
          | cons a b =>
            simp only [List.cons_append, List.cons.injEq] at ht
            simp only [List.map_cons, List.cons.injEq] at hm
            exact absurd (ht.1 ▸ hm.1) hc

theorem isJsSpace_lowerChar (c : Char) : isJsSpace (lowerChar c) = isJsSpace c := by
  unfold lowerChar
  split <;> rfl

theorem not_space_of_digit (x : Char) (h : Char.isDigit x = true) : isJsSpace x = false := by
  by_contra hs
  have hs' : isJsSpace x = true := eq_true_of_ne_false hs
  simp only [isJsSpace, Bool.or_eq_true, decide_eq_true_eq] at hs'
  rcases hs' with ((((h1 | h1) | h1) | h1) | h1) | h1 <;> subst h1 <;>
    exact absurd h (by decide)

/-! ### Correctness of the LIMIT scanner -/

theorem limitMatchHere_eq_some (s : List Char) (v : Nat) (r : List Char) :
    limitMatchHere s = some (v, r) ↔
      ∃ k ws ds, s = k ++ (ws ++ (ds ++ r)) ∧ k.map lowerChar = limitWord ∧
        ws ≠ [] ∧ (∀ x ∈ ws, isJsSpace x = true) ∧
        ds ≠ [] ∧ (∀ x ∈ ds, Char.isDigit x = true) ∧
        (∀ x, r.head? = some x → Char.isDigit x = false) ∧ v = digitsToNat ds := by
  constructor
  · intro h
    unfold limitMatchHere at h
    cases hm : matchCI limitWord s with
    | none => rw [hm] at h; exact absurd h (by simp)
    | some rest =>
      rw [hm, Option.some_bind] at h
      by_cases h1 : (rest.takeWhile isJsSpace).isEmpty
      · rw [if_pos h1] at h; exact absurd h (by simp)
      · rw [if_neg h1] at h
        simp only at h
        by_cases h2 : ((rest.dropWhile isJsSpace).takeWhile Char.isDigit).isEmpty
        · rw [if_pos h2] at h; exact absurd h (by simp)
        · rw [if_neg h2] at h
          simp only [Option.some.injEq, Prod.mk.injEq] at h
          obtain ⟨hv, hrr⟩ := h
          obtain ⟨k, rfl, hk⟩ := (matchCI_eq_some limitWord s rest).mp hm
          refine ⟨k, rest.takeWhile isJsSpace, (rest.dropWhile isJsSpace).takeWhile Char.isDigit,
            ?_, hk, ?_, ?_, ?_, ?_, ?_, hv.symm⟩
          · rw [← hrr]
            congr 1
            rw [List.takeWhile_append_dropWhile]
            exact (List.takeWhile_append_dropWhile ..).symm
          · simpa [List.isEmpty_iff] using h1
          · intro x hx; exact List.mem_takeWhile_imp hx
          · simpa [List.isEmpty_iff] using h2
          · intro x hx; exact List.mem_takeWhile_imp hx
          · rw [← hrr]; exact head?_dropWhile_nope _ _
  · rintro ⟨k, ws, ds, rfl, hk, hws, hwsall, hds, hdsall, hr, rfl⟩
    unfold limitMatchHere
    rw [matchCI_append limitWord k (ws ++ (ds ++ r)) hk, Option.some_bind]
    have hd0 : ∀ y, (ds ++ r).head? = some y → isJsSpace y = false := by
      cases ds with
      | nil => exact absurd rfl hds
      | cons d ds' =>
        intro y hy
        simp only [List.cons_append, List.head?_cons, Option.some.injEq] at hy
        subst hy
        exact not_space_of_digit _ (hdsall _ (List.mem_cons_self ..))
    obtain ⟨hws1, hws2⟩ := takeWhile_split isJsSpace ws (ds ++ r) hwsall hd0
    obtain ⟨hds1, hds2⟩ := takeWhile_split Char.isDigit ds r hdsall hr
    rw [hws1]
    rw [if_neg (by simpa [List.isEmpty_iff] using hws)]
    simp only [hws2, hds1, hds2]
    rw [if_neg (by simpa [List.isEmpty_iff] using hds)]

theorem limitOcc_iff (pw : Bool) (s a : List Char) (v : Nat) (r : List Char) :
    LimitOcc pw s a v r ↔
      boundaryOkBefore pw a ∧ ∃ tail, s = a ++ tail ∧ limitMatchHere tail = some (v, r) := by
  unfold LimitOcc
  constructor
  · rintro ⟨hb, k, ws, ds, rfl, hk, hws, hwsall, hds, hdsall, hr, rfl⟩
    exact ⟨hb, k ++ (ws ++ (ds ++ r)), rfl,
      (limitMatchHere_eq_some ..).mpr ⟨k, ws, ds, rfl, hk, hws, hwsall, hds, hdsall, hr, rfl⟩⟩
  · rintro ⟨hb, tail, rfl, hm⟩
    obtain ⟨k, ws, ds, rfl, hk, hws, hwsall, hds, hdsall, hr, rfl⟩ :=
      (limitMatchHere_eq_some ..).mp hm
    exact ⟨hb, k, ws, ds, rfl, hk, hws, hwsall, hds, hdsall, hr, rfl⟩

theorem limitOcc_nil_iff (pw : Bool) (s : List Char) (v : Nat) (r : List Char) :
    LimitOcc pw s [] v r ↔ pw = false ∧ limitMatchHere s = some (v, r) := by
  rw [limitOcc_iff]
  simp [boundaryOkBefore]

theorem boundaryOkBefore_cons (pw : Bool) (c : Char) (a : List Char) :
    boundaryOkBefore pw (c :: a) ↔ boundaryOkBefore (isWordChar c) a := by
  cases a with
  | nil => simp [boundaryOkBefore]
  | cons b bs =>
    cases hg : (b :: bs).getLast? with
    | none => simp at hg
    | some x => simp [boundaryOkBefore, List.getLast?_cons_cons, hg]

theorem limitOcc_cons_iff (pw : Bool) (c : Char) (s a : List Char) (v : Nat) (r : List Char) :
    LimitOcc pw (c :: s) (c :: a) v r ↔ LimitOcc (isWordChar c) s a v r := by
  rw [limitOcc_iff, limitOcc_iff, boundaryOkBefore_cons]
  simp

theorem limitOcc_not_nil (pw : Bool) (a : List Char) (v : Nat) (r : List Char) :
    ¬ LimitOcc pw [] a v r := by
  rw [limitOcc_iff]
  rintro ⟨hb, tail, htail, hm⟩
  obtain ⟨rfl, rfl⟩ := List.append_eq_nil.mp htail.symm
  simp [limitMatchHere, matchCI, limitWord] at hm

theorem limitOcc_shape (pw : Bool) (c : Char) (s a : List Char) (v : Nat) (r : List Char)
    (h : LimitOcc pw (c :: s) a v r) : a = [] ∨ ∃ a', a = c :: a' := by
  rw [limitOcc_iff] at h
  obtain ⟨_, tail, htail, _⟩ := h
  cases a with
  | nil => exact Or.inl rfl
  | cons x a' =>
    simp only [List.cons_append, List.cons.injEq] at htail
    exact Or.inr ⟨a', by rw [htail.1]⟩

theorem scanLimit_sound :
    ∀ (s : List Char) (pw : Bool) (a : List Char) (v : Nat) (r : List Char),
      scanLimit pw s = some (a, v, r) → LimitOcc pw s a v r := by
  intro s
  induction s with
  | nil => intro pw a v r h; simp [scanLimit] at h
  | cons c cs ih =>
    intro pw a v r h
    simp only [scanLimit] at h
    cases hg : (if pw then none else limitMatchHere (c :: cs)) with
    | some p =>
      obtain ⟨v0, r0⟩ := p
      rw [hg] at h
      simp only [Option.some.injEq, Prod.mk.injEq] at h
      obtain ⟨rfl, rfl, rfl⟩ := h
      cases hpw : pw with
      | true => rw [hpw, if_pos rfl] at hg; exact absurd hg (by simp)
      | false =>
        rw [hpw, if_neg (by simp)] at hg
        exact (limitOcc_nil_iff ..).mpr ⟨rfl, hg⟩
    | none =>
      rw [hg] at h
      cases hrec : scanLimit (isWordChar c) cs with
      | none => rw [hrec] at h; simp at h
      | some q =>
        obtain ⟨a0, v0, r0⟩ := q
        rw [hrec] at h
        simp only [Option.some.injEq, Prod.mk.injEq] at h
        obtain ⟨rfl, rfl, rfl⟩ := h
        exact (limitOcc_cons_iff ..).mpr (ih _ _ _ _ hrec)

theorem scanLimit_min :
    ∀ (s : List Char) (pw : Bool) (a : List Char) (v : Nat) (r : List Char),
      scanLimit pw s = some (a, v, r) →
      ∀ (a' : List Char) (v' : Nat) (r' : List Char),
        LimitOcc pw s a' v' r' → a.length ≤ a'.length := by
  intro s
  induction s with
  | nil => intro pw a v r h; simp [scanLimit] at h
  | cons c cs ih =>
    intro pw a v r h a' v' r' hocc
    simp only [scanLimit] at h
    cases hg : (if pw then none else limitMatchHere (c :: cs)) with
    | some p =>
      obtain ⟨v0, r0⟩ := p
      rw [hg] at h
      simp only [Option.some.injEq, Prod.mk.injEq] at h
      obtain ⟨rfl, rfl, rfl⟩ := h
      exact Nat.zero_le _
    | none =>
      rw [hg] at h
      cases hrec : scanLimit (isWordChar c) cs with
      | none => rw [hrec] at h; simp at h
      | some q =>
        obtain ⟨a0, v0, r0⟩ := q
        rw [hrec] at h
        simp only [Option.some.injEq, Prod.mk.injEq] at h
        obtain ⟨rfl, rfl, rfl⟩ := h
        rcases limitOcc_shape _ _ _ _ _ _ hocc with rfl | ⟨a'', rfl⟩
        · obtain ⟨hpw, hh⟩ := (limitOcc_nil_iff ..).mp hocc
          rw [hpw, if_neg (by simp)] at hg
          rw [hg] at hh
          exact absurd hh (by simp)
        · have := ih _ _ _ _ hrec a'' v' r' ((limitOcc_cons_iff ..).mp hocc)
          simpa using Nat.succ_le_succ this

theorem scanLimit_complete :
    ∀ (s : List Char) (pw : Bool) (a : List Char) (v : Nat) (r : List Char),
      LimitOcc pw s a v r → (scanLimit pw s).isSome = true := by
  intro s
  induction s with
  | nil => intro pw a v r h; exact absurd h (limitOcc_not_nil _ _ _ _)
  | cons c cs ih =>
    intro pw a v r hocc
    rcases limitOcc_shape _ _ _ _ _ _ hocc with rfl | ⟨a', rfl⟩
    · obtain ⟨hpw, hh⟩ := (limitOcc_nil_iff ..).mp hocc
      simp [scanLimit, hpw, hh]
    · have hrec := ih _ _ _ _ ((limitOcc_cons_iff ..).mp hocc)
      simp only [scanLimit]
      cases hg : (if pw then none else limitMatchHere (c :: cs)) with
      | some p => obtain ⟨v0, r0⟩ := p; simp
      | none =>
        cases hq : scanLimit (isWordChar c) cs with
        | none => rw [hq] at hrec; simp at hrec
        | some q => obtain ⟨a0, v0, r0⟩ := q; simp

theorem scanLimit_first :
    ∀ (s : List Char) (pw : Bool) (a : List Char) (v : Nat) (r : List Char),
      LimitOcc pw s a v r →
      (∀ a' v' r', LimitOcc pw s a' v' r' → a.length ≤ a'.length) →
      scanLimit pw s = some (a, v, r) := by
  intro s
  induction s with
  | nil => intro pw a v r h; exact absurd h (limitOcc_not_nil _ _ _ _)
  | cons c cs ih =>
    intro pw a v r hocc hmin
    rcases limitOcc_shape _ _ _ _ _ _ hocc with rfl | ⟨a', rfl⟩
    · obtain ⟨hpw, hh⟩ := (limitOcc_nil_iff ..).mp hocc
      simp [scanLimit, hpw, hh]
    · have hocc' := (limitOcc_cons_iff ..).mp hocc
      have hguard : (if pw then none else limitMatchHere (c :: cs)) = none := by
        cases hpw : pw with
        | true => simp
        | false =>
          rw [if_neg (by simp)]
          cases hh : limitMatchHere (c :: cs) with
          | none => rfl
          | some p =>
            obtain ⟨v0, r0⟩ := p
            have h0 : LimitOcc pw (c :: cs) [] v0 r0 :=
              (limitOcc_nil_iff ..).mpr ⟨hpw, hh⟩
            have := hmin [] v0 r0 h0
            simp at this
      have hmin' : ∀ a'' v'' r'', LimitOcc (isWordChar c) cs a'' v'' r'' →
          a'.length ≤ a''.length := by
        intro a'' v'' r'' h''
        have := hmin (c :: a'') v'' r'' ((limitOcc_cons_iff ..).mpr h'')
        simpa using this
      have hrec := ih _ _ _ _ hocc' hmin'
      simp [scanLimit, hguard, hrec]

theorem scanLimit_none_iff (pw : Bool) (s : List Char) :
    scanLimit pw s = none ↔ ∀ a v r, ¬ LimitOcc pw s a v r := by
  constructor
  · intro h a v r hocc
    have := scanLimit_complete s pw a v r hocc
    rw [h] at this
    simp at this
  · intro h
    cases hs : scanLimit pw s with
    | none => rfl
    | some p =>
      obtain ⟨a, v, r⟩ := p
      exact absurd (scanLimit_sound s pw a v r hs) (h a v r)

theorem mem_limitOccValues :
    ∀ (s : List Char) (pw : Bool) (v : Nat),
      v ∈ limitOccValues pw s ↔ ∃ a r, LimitOcc pw s a v r := by
  intro s
  induction s with
  | nil =>
    intro pw v
    simp only [limitOccValues, List.not_mem_nil, false_iff, not_exists]
    intro a r
    exact limitOcc_not_nil _ _ _ _
  | cons c cs ih =>
    intro pw v
    simp only [limitOccValues, List.mem_append]
    constructor
    · rintro (hv | hv)
      · cases hpw : pw with
        | true => rw [hpw, if_pos rfl] at hv; simp at hv
        | false =>
          rw [hpw, if_neg (by simp)] at hv
          cases hh : limitMatchHere (c :: cs) with
          | none => rw [hh] at hv; simp at hv
          | some p =>
            obtain ⟨v0, r0⟩ := p
            rw [hh] at hv
            simp only [List.mem_singleton] at hv
            subst hv
            exact ⟨[], r0, (limitOcc_nil_iff ..).mpr ⟨by simp [hpw], hh⟩⟩
      · obtain ⟨a, r, hocc⟩ := (ih _ _).mp hv
        exact ⟨c :: a, r, (limitOcc_cons_iff ..).mpr hocc⟩
    · rintro ⟨a, r, hocc⟩
      rcases limitOcc_shape _ _ _ _ _ _ hocc with rfl | ⟨a', rfl⟩
      · obtain ⟨hpw, hh⟩ := (limitOcc_nil_iff ..).mp hocc
        left
        rw [hpw, if_neg (by simp), hh]
        simp
      · right
        exact (ih _ _).mpr ⟨a', r, (limitOcc_cons_iff ..).mp hocc⟩

/-! ### Correctness of the deny-list scanner -/

theorem ctx_head_spec (ctx : String) (hm : ctx ∈ contextWords) :
    ∃ h0 t, ctx.data = h0 :: t ∧ isJsSpace h0 = false := by
  have hall : contextWords.all ctxHeadOk = true := by decide
  have hok : ctxHeadOk ctx = true := List.all_eq_true.mp hall ctx hm
  cases hctx : ctx.data with
  | nil =>
    unfold ctxHeadOk at hok
    rw [hctx] at hok
    exact absurd hok (by simp)
  | cons c t =>
    refine ⟨c, t, rfl, ?_⟩
    unfold ctxHeadOk at hok
    rw [hctx] at hok
    simpa using hok

theorem ctxTailMatch_iff (rest2 : List Char) (ctx : String) :
    ctxTailMatch rest2 ctx = true ↔
      ∃ c r, rest2 = c ++ r ∧ c.map lowerChar = ctx.data ∧
        (∀ x, r.head? = some x → isWordChar x = false) := by
  unfold ctxTailMatch
  cases hm : matchCI ctx.data rest2 with
  | none =>
    simp only [Option.map_none', Option.getD_none, Bool.false_eq_true, false_iff, not_exists]
    rintro c r ⟨rfl, hc, hr⟩
    rw [matchCI_append ctx.data c r hc] at hm
    exact absurd hm (by simp)
  | some rest3 =>
    simp only [Option.map_some', Option.getD_some]
    obtain ⟨c, rfl, hc⟩ := (matchCI_eq_some ..).mp hm
    cases hh : rest3.head? with
    | none =>
      simp only [Option.map_none', Option.getD_none, true_iff]
      refine ⟨c, rest3, rfl, hc, ?_⟩
      intro x hx
      rw [hh] at hx
      exact absurd hx (by simp)
    | some x =>
      simp only [Option.map_some', Option.getD_some, Bool.not_eq_true']
      constructor
      · intro hx
        refine ⟨c, rest3, rfl, hc, ?_⟩
        intro y hy
        rw [hh] at hy
        simp only [Option.some.injEq] at hy
        subst hy
        exact hx
      · rintro ⟨c', r', heq, hc', hr'⟩
        have hlen : c.length = c'.length := by
          have h1 := congrArg List.length hc
          have h2 := congrArg List.length hc'
          rw [List.length_map] at h1 h2
          rw [h1, h2]
        obtain ⟨rfl, rfl⟩ := List.append_inj heq hlen
        exact hr' x hh

theorem kwCtxHere_nil (kw : List Char) : kwCtxHere kw [] = false := by
  cases kw <;> simp [kwCtxHere, matchCI]

theorem kwCtxHere_iff (kw : List Char) (s : List Char) :
    kwCtxHere kw s = true ↔
      ∃ k ws c r ctx, s = k ++ (ws ++ (c ++ r)) ∧ k.map lowerChar = kw ∧
        ws ≠ [] ∧ (∀ x ∈ ws, isJsSpace x = true) ∧
        ctx ∈ contextWords ∧ c.map lowerChar = ctx.data ∧
        (∀ x, r.head? = some x → isWordChar x = false) := by
  unfold kwCtxHere
  cases hm : matchCI kw s with
  | none =>
    simp only [Option.map_none', Option.getD_none, Bool.false_eq_true, false_iff, not_exists]
    rintro k ws c r ctx ⟨rfl, hk, hws, hwsall, hctx, hc, hr⟩
    rw [matchCI_append kw k (ws ++ (c ++ r)) hk] at hm
    exact absurd hm (by simp)
  | some rest =>
    simp only [Option.map_some', Option.getD_some]
    obtain ⟨k, rfl, hk⟩ := (matchCI_eq_some ..).mp hm
    by_cases h1 : (rest.takeWhile isJsSpace).isEmpty
    · rw [if_pos h1]
      simp only [Bool.false_eq_true, false_iff, not_exists]
      rintro k' ws c r ctx ⟨heq, hk', hws, hwsall, hctx, hc, hr⟩
      have hlen : k.length = k'.length := by
        have ha := congrArg List.length hk
        have hb := congrArg List.length hk'
        rw [List.length_map] at ha hb
        rw [ha, hb]
      obtain ⟨rfl, hrest⟩ := List.append_inj heq hlen
      cases ws with
      | nil => exact hws rfl
      | cons w0 ws' =>
        rw [hrest] at h1
        rw [List.cons_append, List.takeWhile_cons_of_pos (hwsall w0 (List.mem_cons_self ..))] at h1
        exact absurd h1 (by simp)
    · rw [if_neg h1]
      rw [List.any_eq_true]
      constructor
      · rintro ⟨ctx, hctx, hct⟩
        obtain ⟨c, r, hsplit, hc, hr⟩ := (ctxTailMatch_iff ..).mp hct
        refine ⟨k, rest.takeWhile isJsSpace, c, r, ctx, ?_, hk, ?_, ?_, hctx, hc, hr⟩
        · rw [← hsplit, List.takeWhile_append_dropWhile]
        · simpa [List.isEmpty_iff] using h1
        · intro x hx
          exact List.mem_takeWhile_imp hx
      · rintro ⟨k', ws, c, r, ctx, heq, hk', hws, hwsall, hctx, hc, hr⟩
        have hlen : k.length = k'.length := by
          have ha := congrArg List.length hk
          have hb := congrArg List.length hk'
          rw [List.length_map] at ha hb
          rw [ha, hb]
        obtain ⟨rfl, hrest⟩ := List.append_inj heq hlen
        have hd0 : ∀ y, (c ++ r).head? = some y → isJsSpace y = false := by
          obtain ⟨h0, t, hctxd, hh0⟩ := ctx_head_spec ctx hctx
          cases c with
          | nil =>
            rw [hctxd] at hc
            exact absurd hc (by simp)
          | cons c0 c' =>
            intro y hy
            simp only [List.cons_append, List.head?_cons, Option.some.injEq] at hy
            subst hy
            rw [hctxd] at hc
            simp only [List.map_cons, List.cons.injEq] at hc
            rw [← isJsSpace_lowerChar, hc.1]
            exact hh0
        obtain ⟨_, hdrop⟩ := takeWhile_split isJsSpace ws (c ++ r) hwsall hd0
        refine ⟨ctx, hctx, (ctxTailMatch_iff ..).mpr ⟨c, r, ?_, hc, hr⟩⟩
        rw [hrest, hdrop]

theorem scanKwCtx_eq_true :
    ∀ (s kw : List Char) (pw : Bool),
      scanKwCtx kw pw s = true ↔
        ∃ a tail, s = a ++ tail ∧ boundaryOkBefore pw a ∧ kwCtxHere kw tail = true := by
  intro s
  induction s with
  | nil =>
    intro kw pw
    simp only [scanKwCtx, Bool.false_eq_true, false_iff, not_exists]
    rintro a tail ⟨heq, _, hh⟩
    obtain ⟨rfl, rfl⟩ := List.append_eq_nil.mp heq.symm
    rw [kwCtxHere_nil] at hh
    exact absurd hh (by simp)
  | cons c cs ih =>
    intro kw pw
    simp only [scanKwCtx, Bool.or_eq_true, Bool.and_eq_true, Bool.not_eq_true']
    rw [ih]
    constructor
    · rintro (⟨hpw, hh⟩ | ⟨a, tail, rfl, hb, hh⟩)
      · exact ⟨[], c :: cs, rfl, by simpa [boundaryOkBefore] using hpw, hh⟩
      · exact ⟨c :: a, tail, rfl, (boundaryOkBefore_cons ..).mpr hb, hh⟩
    · rintro ⟨a, tail, heq, hb, hh⟩
      cases a with
      | nil =>
        left
        refine ⟨by simpa [boundaryOkBefore] using hb, ?_⟩
        simp only [List.nil_append] at heq
        rw [heq]
        exact hh
      | cons x a' =>
        right
        simp only [List.cons_append, List.cons.injEq] at heq
        obtain ⟨rfl, rfl⟩ := heq
        exact ⟨a', tail, rfl, (boundaryOkBefore_cons ..).mp hb, hh⟩

theorem kwCtxOccurs_iff_scan (kw : String) (q : String) :
    scanKwCtx kw.data false q.data = true ↔ KwCtxOccurs kw q := by
  rw [scanKwCtx_eq_true]
  unfold KwCtxOccurs
  constructor
  · rintro ⟨a, tail, heq, hb, hh⟩
    obtain ⟨k, ws, c, r, ctx, rfl, hk, hws, hwsall, hctx, hc, hr⟩ := (kwCtxHere_iff ..).mp hh
    exact ⟨a, k, ws, c, r, ctx, heq, hb, hk, hws, hwsall, hctx, hc, hr⟩
  · rintro ⟨a, k, ws, c, r, ctx, heq, hb, hk, hws, hwsall, hctx, hc, hr⟩
    exact ⟨a, k ++ (ws ++ (c ++ r)), heq, hb,
      (kwCtxHere_iff ..).mpr ⟨k, ws, c, r, ctx, rfl, hk, hws, hwsall, hctx, hc, hr⟩⟩

theorem firstForbidden_isSome_iff (q : String) :
    (firstForbidden q).isSome = true ↔ ∃ kw ∈ forbiddenKeywords, KwCtxOccurs kw q := by
  unfold firstForbidden
  rw [List.find?_isSome]
  constructor
  · rintro ⟨kw, hkw, hs⟩
    exact ⟨kw, hkw, (kwCtxOccurs_iff_scan ..).mp hs⟩
  · rintro ⟨kw, hkw, ho⟩
    exact ⟨kw, hkw, (kwCtxOccurs_iff_scan ..).mpr ho⟩

/-! ### Pipeline-level helper lemmas -/

theorem executeQueryPlan_validated (q : String) (cap : Nat)
    (hpre : ("select".data.isPrefixOf ((jsTrim q.data).map lowerChar) ||
        "with".data.isPrefixOf ((jsTrim q.data).map lowerChar)) = true)
    (hforb : firstForbidden q = none) :
    executeQueryPlan q cap = .ok (String.mk (injectLimit (jsTrim q.data) cap)) := by
  unfold executeQueryPlan
  simp only [hpre, hforb, Bool.not_true, Bool.false_eq_true, if_false]

theorem injectLimit_of_none (t : List Char) (cap : Nat)
    (h : ∀ a v r, ¬ LimitOcc false t a v r) :
    injectLimit t cap = t ++ (" LIMIT " ++ toString (safeLimitOf cap)).data := by
  unfold injectLimit
  rw [(scanLimit_none_iff false t).mpr h]

theorem injectLimit_of_first (t : List Char) (cap : Nat) (a : List Char) (v : Nat)
    (r : List Char) (hocc : LimitOcc false t a v r)
    (hmin : ∀ a' v' r', LimitOcc false t a' v' r' → a.length ≤ a'.length) :
    injectLimit t cap = a ++ ("LIMIT " ++ toString (min v 100)).data ++ r := by
  unfold injectLimit
  rw [scanLimit_first t false a v r hocc hmin]

theorem length_mk_append (l : List Char) (t : String) :
    (String.mk l ++ t).length = l.length + t.length := by
  cases t with
  | mk d => exact List.length_append l d

theorem assertSchemaAllowed_err (allowed : List String) (schema : String)
    (hne : allowed ≠ []) (hmem : schema ∉ allowed) :
    assertSchemaAllowed schema allowed =
      .err (.permissionDenied (permissionDeniedMessage schema)) := by
  unfold assertSchemaAllowed
  have h1 : allowed.length > 0 := List.length_pos.mpr hne
  have h2 : allowed.contains schema = false := by
    rw [← Bool.not_eq_true, List.elem_iff]
    exact hmem
  rw [if_pos (by simp [h1, h2, hmem])]

/-! ### The claims -/

/-- C1 counterexample: the claim says that when the statement already has a
LIMIT clause, the final SQL is "the input with the first occurrence's
numeric value replaced by min(existingValue, 100)".  On the input
`select * from t limit 500` (lower case) a value-only replacement would
yield `select * from t limit 100`, but the handler replaces the whole
matched clause with the canonical text `LIMIT 100`. -/
theorem c1_limit_rewrite_counterexample :
    executeQueryPlan "select * from t limit 500" 5 = .ok "select * from t LIMIT 100" ∧
    ("select * from t LIMIT 100" : String) ≠ "select * from t limit 100" :=
  ⟨by decide, by decide⟩

/-- C1 (amended): for a validated freeform query, if the trimmed statement
has no `LIMIT <integer>` clause, the final SQL is the trimmed input with
` LIMIT min(max(1, requestedCap), 100)` appended; if it has one, the
requested cap is ignored and the first (leftmost) occurrence — the entire
matched `LIMIT <n>` text — is replaced by the canonical text
`LIMIT min(existingValue, 100)`; execute-query("SELECT * FROM t LIMIT 500",
cap=5) yields "SELECT * FROM t LIMIT 100". -/
theorem c1_limit_rewrite_amended (q : String) (cap : Nat)
    (hpre : ("select".data.isPrefixOf ((jsTrim q.data).map lowerChar) ||
        "with".data.isPrefixOf ((jsTrim q.data).map lowerChar)) = true)
    (hforb : firstForbidden q = none) :
    ((∀ a v r, ¬ LimitOcc false (jsTrim q.data) a v r) →
      executeQueryPlan q cap =
        .ok (String.mk (jsTrim q.data ++
          (" LIMIT " ++ toString (min (max 1 cap) 100)).data))) ∧
    (∀ a v r, LimitOcc false (jsTrim q.data) a v r →
      (∀ a' v' r', LimitOcc false (jsTrim q.data) a' v' r' → a.length ≤ a'.length) →
      executeQueryPlan q cap =
        .ok (String.mk (a ++ ("LIMIT " ++ toString (min v 100)).data ++ r))) ∧
    executeQueryPlan "SELECT * FROM t LIMIT 500" 5 = .ok "SELECT * FROM t LIMIT 100" := by
  refine ⟨?_, ?_, by decide⟩
  · intro hno
    rw [executeQueryPlan_validated q cap hpre hforb, injectLimit_of_none _ _ hno]
    rfl
  · intro a v r hocc hmin
    rw [executeQueryPlan_validated q cap hpre hforb,
      injectLimit_of_first _ cap a v r hocc hmin]

/-- C1 witness: the amended theorem applied to the concrete query
`SELECT 1` with cap 7 (no existing LIMIT, so one is appended). -/
theorem c1_limit_rewrite_amended_witness :
    executeQueryPlan "SELECT 1" 7 = .ok "SELECT 1 LIMIT 7" := by
  have h := (c1_limit_rewrite_amended "SELECT 1" 7 (by decide) (by decide)).1
  have hnone : ∀ a v r, ¬ LimitOcc false (jsTrim ("SELECT 1" : String).data) a v r :=
    (scanLimit_none_iff false (jsTrim ("SELECT 1" : String).data)).mp (by decide)
  exact (h hnone).trans (by decide)

/-- C2 counterexample: for the input `SELECT * FROM t LIMIT 500` with
requested cap R = 5, the claim asserts the final statement contains a
LIMIT clause whose value is min(R, 100) = 5; the actual final statement is
`SELECT * FROM t LIMIT 100`, which contains no LIMIT clause of value 5. -/
theorem c2_effective_cap_counterexample :
    executeQueryPlan "SELECT * FROM t LIMIT 500" 5 = .ok "SELECT * FROM t LIMIT 100" ∧
    ¬ ∃ a r, LimitOcc false ("SELECT * FROM t LIMIT 100" : String).data a (min 5 100) r := by
  refine ⟨by decide, ?_⟩
  rintro ⟨a, r, hocc⟩
  have hv := (mem_limitOccValues (("SELECT * FROM t LIMIT 100" : String).data) false
    (min 5 100)).mpr ⟨a, r, hocc⟩
  have hvals : limitOccValues false (("SELECT * FROM t LIMIT 100" : String).data) = [100] := by
    decide
  rw [hvals] at hv
  exact absurd hv (by decide)

/-- C2 (amended): for every validated freeform query and every requested cap
R in [1, 100]: when the statement has no existing LIMIT clause the
effective cap is min(R, 100) = R and the final statement is the trimmed
input with ` LIMIT R` appended; when it already has one, R is ignored and
only the first clause is rewritten, to min(existingValue, 100). -/
theorem c2_effective_cap_amended (q : String) (R : Nat) (hR1 : 1 ≤ R) (hR2 : R ≤ 100)
    (hpre : ("select".data.isPrefixOf ((jsTrim q.data).map lowerChar) ||
        "with".data.isPrefixOf ((jsTrim q.data).map lowerChar)) = true)
    (hforb : firstForbidden q = none) :
    ((∀ a v r, ¬ LimitOcc false (jsTrim q.data) a v r) →
      min R 100 = R ∧
      executeQueryPlan q R =
        .ok (String.mk (jsTrim q.data ++ (" LIMIT " ++ toString R).data))) ∧
    (∀ a v r, LimitOcc false (jsTrim q.data) a v r →
      (∀ a' v' r', LimitOcc false (jsTrim q.data) a' v' r' → a.length ≤ a'.length) →
      executeQueryPlan q R =
        .ok (String.mk (a ++ ("LIMIT " ++ toString (min v 100)).data ++ r))) := by
  have hsafe : safeLimitOf R = R := by
    unfold safeLimitOf
    omega
  refine ⟨?_, ?_⟩
  · intro hno
    refine ⟨by omega, ?_⟩
    rw [executeQueryPlan_validated q R hpre hforb, injectLimit_of_none _ _ hno, hsafe]
  · intro a v r hocc hmin
    rw [executeQueryPlan_validated q R hpre hforb, injectLimit_of_first _ R a v r hocc hmin]

/-- C2 witness: the amended theorem applied to the concrete query
`SELECT 2` with cap 9. -/
theorem c2_effective_cap_amended_witness :
    executeQueryPlan "SELECT 2" 9 = .ok "SELECT 2 LIMIT 9" := by
  have h := (c2_effective_cap_amended "SELECT 2" 9 (by decide) (by decide)
    (by decide) (by decide)).1
  have hnone : ∀ a v r, ¬ LimitOcc false (jsTrim ("SELECT 2" : String).data) a v r :=
    (scanLimit_none_iff false (jsTrim ("SELECT 2" : String).data)).mp (by decide)
  exact (h hnone).2.trans (by decide)

/-- C3: the schema gate permits every schema when the allow-list is empty;
for a non-empty list it permits a schema exactly when it is an element
under exact, case-sensitive string equality (no case folding, no prefix
matching), and `assertSchemaAllowed` fails with PermissionDenied
otherwise. -/
theorem c3_schema_gate :
    (∀ (allowed : List String) (s : String),
        isSchemaAllowed allowed s = true ↔ (allowed = [] ∨ s ∈ allowed)) ∧
    (∀ (allowed : List String) (s : String),
        assertSchemaAllowed s allowed =
          if allowed = [] ∨ s ∈ allowed then Res.ok () else
            Res.err (.permissionDenied (permissionDeniedMessage s))) ∧
    isSchemaAllowed ["public"] "PUBLIC" = false ∧
    isSchemaAllowed ["pub"] "public" = false := by
  refine ⟨?_, ?_, by decide, by decide⟩
  · intro allowed s
    unfold isSchemaAllowed
    by_cases h : allowed = []
    · simp [h]
    · rw [if_neg (by simpa [List.length_eq_zero] using h)]
      simp [h, List.elem_iff]
  · intro allowed s
    unfold assertSchemaAllowed
    by_cases h : allowed = []
    · subst h
      simp
    · have hlen : allowed.length > 0 := List.length_pos.mpr h
      by_cases hm : s ∈ allowed
      · have hc : allowed.contains s = true := List.elem_iff.mpr hm
        have hcond : ¬ ((decide (allowed.length > 0) && !allowed.contains s) = true) := by
          rw [hc]
          simp
        rw [if_pos (show allowed = [] ∨ s ∈ allowed from Or.inr hm), if_neg hcond]
      · have hc : allowed.contains s = false := by
          rw [← Bool.not_eq_true, List.elem_iff]
          exact hm
        have hcond : (decide (allowed.length > 0) && !allowed.contains s) = true := by
          rw [hc]
          simp [hlen]
        rw [if_neg (show ¬ (allowed = [] ∨ s ∈ allowed) from fun hor => hor.elim h hm),
          if_pos hcond]

/-- C4: `formatResult` returns serializations of at most 25000 characters
unmodified with `truncated = false`; longer ones are cut to their first
25000 characters followed by the notice stating the true total length,
with `truncated = true`, and the output length is exactly 25000 plus the
length of the notice. -/
theorem c4_format_truncation (text : String) :
    (text.length ≤ 25000 → formatResult text = ⟨text, false⟩) ∧
    (25000 < text.length →
      formatResult text =
          ⟨String.mk (text.data.take 25000) ++ truncationNotice text.length, true⟩ ∧
        (formatResult text).text.length = 25000 + (truncationNotice text.length).length) := by
  constructor
  · intro h
    unfold formatResult
    rw [if_pos (show text.length ≤ CHARACTER_LIMIT from h)]
  · intro h
    have hnot : ¬ (text.length ≤ CHARACTER_LIMIT) := by
      unfold CHARACTER_LIMIT
      omega
    constructor
    · unfold formatResult
      rw [if_neg hnot]
      rfl
    · unfold formatResult
      rw [if_neg hnot]
      show (String.mk (text.data.take CHARACTER_LIMIT) ++ truncationNotice text.length).length = _
      rw [length_mk_append, List.length_take]
      have hd : text.data.length = text.length := rfl
      unfold CHARACTER_LIMIT
      omega

/-- C4 witness: the theorem applied to a 2-character serialization and to a
25001-character serialization. -/
theorem c4_format_truncation_witness :
    formatResult "ok" = ⟨"ok", false⟩ ∧
    (formatResult (String.mk (List.replicate 25001 'x'))).truncated = true ∧
    (formatResult (String.mk (List.replicate 25001 'x'))).text.length =
      25000 + (truncationNotice 25001).length := by
  have hlen : (String.mk (List.replicate 25001 'x')).length = 25001 := by
    exact List.length_replicate 25001 'x'
  have hgt : 25000 < (String.mk (List.replicate 25001 'x')).length := by
    rw [hlen]
    omega
  refine ⟨(c4_format_truncation "ok").1 (by decide), ?_, ?_⟩
  · have h2 := ((c4_format_truncation (String.mk (List.replicate 25001 'x'))).2 hgt).1
    rw [h2]
  · have h3 := ((c4_format_truncation (String.mk (List.replicate 25001 'x'))).2 hgt).2
    rw [h3, hlen]

/-- C5: every freeform SQL text whose trimmed, lower-cased form starts with
neither `select` nor `with` is rejected with an InvalidOperation error
whose message names the allowed prefixes, and no SQL is produced for
execution. -/
theorem c5_prefix_validation (q : String) (cap : Nat)
    (h1 : "select".data.isPrefixOf ((jsTrim q.data).map lowerChar) = false)
    (h2 : "with".data.isPrefixOf ((jsTrim q.data).map lowerChar) = false) :
    executeQueryPlan q cap = .err (.invalidOperation selectWithMessage) ∧
    (∃ a b, selectWithMessage.data = a ++ ("SELECT".data ++ b)) ∧
    (∃ a b, selectWithMessage.data = a ++ ("WITH".data ++ b)) := by
  refine ⟨?_,
    ⟨("Solo se permiten consultas " : String).data,
      (" o WITH (CTE). No se permiten INSERT, UPDATE, DELETE, DROP, ALTER, CREATE u otras operaciones de modificación." : String).data,
      by decide⟩,
    ⟨("Solo se permiten consultas SELECT o " : String).data,
      (" (CTE). No se permiten INSERT, UPDATE, DELETE, DROP, ALTER, CREATE u otras operaciones de modificación." : String).data,
      by decide⟩⟩
  unfold executeQueryPlan
  simp only [h1, h2, Bool.or_self, Bool.not_false, if_true]

/-- C5 witness: the theorem applied to `DROP TABLE x`. -/
theorem c5_prefix_validation_witness :
    executeQueryPlan "DROP TABLE x" 5 = .err (.invalidOperation selectWithMessage) ∧
    (∃ a b, selectWithMessage.data = a ++ ("SELECT".data ++ b)) ∧
    (∃ a b, selectWithMessage.data = a ++ ("WITH".data ++ b)) :=
  c5_prefix_validation "DROP TABLE x" 5 (by decide) (by decide)

/-- C6: the deny-list stage flags a query exactly when some deny-listed
keyword occurs as a whole word immediately followed (separated by
whitespace) by an object-context word ending at a word boundary; in
particular `DELETE FROM users` is flagged (and the whole validation
rejects it), while `SELECT delete_date FROM logs` passes validation. -/
theorem c6_denylist_characterization :
    (∀ q : String, (firstForbidden q).isSome = true ↔
        ∃ kw ∈ forbiddenKeywords, KwCtxOccurs kw q) ∧
    firstForbidden "DELETE FROM users" = some "delete" ∧
    executeQueryPlan "DELETE FROM users" 5 = .err (.invalidOperation selectWithMessage) ∧
    firstForbidden "SELECT delete_date FROM logs" = none ∧
    executeQueryPlan "SELECT delete_date FROM logs" 5 =
      .ok "SELECT delete_date FROM logs LIMIT 5" :=
  ⟨firstForbidden_isSome_iff, by decide, by decide, by decide, by decide⟩

/-- C7: every list-tables result carries `count` = rows in this page,
`total` = the COUNT(*) result, the requested `offset`, `has_more` =
(total > offset + count), and `next_offset` = offset + count present
exactly when more rows remain. -/
theorem c7_list_tables_pagination {α : Type} (allowed : List String) (schema : String)
    (tables : List α) (limit offset : Nat)
    (hgate : assertSchemaAllowed schema allowed = .ok ()) :
    ∃ meta page, listTables allowed schema tables limit offset = .ok (meta, page) ∧
      page = pageRows tables limit offset ∧
      meta.count = page.length ∧
      meta.total = tables.length ∧
      meta.offset = offset ∧
      (meta.has_more = true ↔ tables.length > offset + page.length) ∧
      (∀ n, meta.next_offset = some n ↔
        (tables.length > offset + page.length ∧ n = offset + page.length)) := by
  refine ⟨pageMetaOf tables.length (pageRows tables limit offset).length offset,
    pageRows tables limit offset, ?_, rfl, rfl, rfl, rfl, ?_, ?_⟩
  · unfold listTables
    rw [hgate]
  · simp [pageMetaOf]
  · intro n
    unfold pageMetaOf
    by_cases h : tables.length > offset + (pageRows tables limit offset).length
    · simp only [if_pos h, Option.some.injEq]
      constructor
      · intro he
        exact ⟨h, he.symm⟩
      · rintro ⟨_, rfl⟩
        rfl
    · simp only [if_neg h]
      constructor
      · intro he
        exact absurd he (by simp)
      · rintro ⟨hh, _⟩
        exact absurd hh h

/-- C7 witness: the theorem applied to a schema with 5 tables,
limit 2, offset 0: count=2, total=5, has_more, next_offset=2. -/
theorem c7_list_tables_pagination_witness :
    ∃ meta page,
      listTables ([] : List String) "public" ["t1", "t2", "t3", "t4", "t5"] 2 0 =
          .ok (meta, page) ∧
        meta.count = 2 ∧ meta.total = 5 ∧ meta.offset = 0 ∧ meta.has_more = true ∧
        meta.next_offset = some 2 ∧ page = ["t1", "t2"] := by
  obtain ⟨meta, page, heq, hpage, hc, ht, ho, hm, hn⟩ :=
    c7_list_tables_pagination ([] : List String) "public" ["t1", "t2", "t3", "t4", "t5"]
      2 0 (by decide)
  refine ⟨meta, page, heq, ?_, ?_, ?_, ?_, ?_, ?_⟩
  · rw [hc, hpage]
    decide
  · rw [ht]
    decide
  · exact ho
  · exact hm.mpr (by rw [hpage]; decide)
  · exact (hn 2).mpr ⟨by rw [hpage]; decide, by rw [hpage]; decide⟩
  · rw [hpage]
    decide

/-- C8: a query-table invocation whose schema is not permitted by a
non-empty allow-list fails with PermissionDenied; no SQL statement is
produced (the handler result is the error, not a built statement). -/
theorem c8_query_table_gate (allowed : List String) (schema table columns : String)
    (whereClause : Option String) (limit : Nat)
    (hne : allowed ≠ []) (hmem : schema ∉ allowed) :
    queryTable allowed schema table columns whereClause limit =
      .err (.permissionDenied (permissionDeniedMessage schema)) := by
  unfold queryTable
  rw [assertSchemaAllowed_err allowed schema hne hmem]

/-- C8 witness: the theorem applied to schema `public` against the
allow-list `["other"]`. -/
theorem c8_query_table_gate_witness :
    queryTable ["other"] "public" "users" "id,name" none 10 =
      .err (.permissionDenied (permissionDeniedMessage "public")) :=
  c8_query_table_gate ["other"] "public" "users" "id,name" none 10
    (by decide) (by decide)

/-- C9: with the schema gate passed, get-function-definition fails with the
NotFound error naming the function and schema exactly when the lookup
returns zero rows; when rows match it returns the first row as a success,
so a success is never produced from an empty lookup. -/
theorem c9_get_function_definition {α : Type} (allowed : List String)
    (schema fname : String) (rows : List α)
    (hgate : assertSchemaAllowed schema allowed = .ok ()) :
    (getFunctionDefinition allowed schema fname rows =
        .err (.notFound (notFoundMessage fname schema)) ↔ rows = []) ∧
    (∀ r rest, rows = r :: rest →
      getFunctionDefinition allowed schema fname rows = .ok r) ∧
    (∀ r, getFunctionDefinition allowed schema fname rows = .ok r → rows ≠ []) := by
  unfold getFunctionDefinition
  rw [hgate]
  refine ⟨?_, ?_, ?_⟩
  · cases rows with
    | nil => simp
    | cons r rest => simp
  · rintro r rest rfl
    rfl
  · intro r h hnil
    subst hnil
    simp at h

/-- C9 witness: the theorem applied to an empty and to a singleton lookup
result. -/
theorem c9_get_function_definition_witness :
    getFunctionDefinition ([] : List String) "public" "fn" ([] : List String) =
        .err (.notFound (notFoundMessage "fn" "public")) ∧
    getFunctionDefinition ([] : List String) "public" "fn" ["def1"] = .ok "def1" := by
  refine ⟨?_, ?_⟩
  · exact (c9_get_function_definition ([] : List String) "public" "fn"
      ([] : List String) (by decide)).1.mpr rfl
  · exact (c9_get_function_definition ([] : List String) "public" "fn"
      ["def1"] (by decide)).2.1 "def1" [] rfl

/-- C10: only the first (leftmost) `LIMIT <integer>` match is rewritten and
everything after it — including later LIMIT clauses — is preserved
verbatim; a non-numeric `LIMIT ALL` is not detected as an existing LIMIT,
so a new `LIMIT <effectiveCap>` is appended at the end. -/
theorem c10_first_limit_only :
    (∀ (t : List Char) (cap : Nat) (a : List Char) (v : Nat) (r : List Char),
      LimitOcc false t a v r →
      (∀ a' v' r', LimitOcc false t a' v' r' → a.length ≤ a'.length) →
      injectLimit t cap = a ++ ("LIMIT " ++ toString (min v 100)).data ++ r) ∧
    executeQueryPlan "SELECT * FROM (SELECT x FROM t LIMIT 500) sub LIMIT 200" 7 =
      .ok "SELECT * FROM (SELECT x FROM t LIMIT 100) sub LIMIT 200" ∧
    executeQueryPlan "SELECT * FROM t LIMIT ALL" 7 =
      .ok "SELECT * FROM t LIMIT ALL LIMIT 7" :=
  ⟨fun t cap a v r hocc hmin => injectLimit_of_first t cap a v r hocc hmin,
    by decide, by decide⟩

/-- C10 witness: the first conjunct applied to the concrete statement
`SELECT 1 LIMIT 300`, whose unique match is rewritten to `LIMIT 100`. -/
theorem c10_first_limit_only_witness :
    injectLimit (("SELECT 1 LIMIT 300" : String).data) 7 =
      ("SELECT 1 LIMIT 100" : String).data := by
  have hscan : scanLimit false (("SELECT 1 LIMIT 300" : String).data) =
      some ((("SELECT 1 " : String).data), 300, []) := by decide
  have hocc := scanLimit_sound _ false _ _ _ hscan
  have hmin := scanLimit_min _ false _ _ _ hscan
  have h := c10_first_limit_only.1 (("SELECT 1 LIMIT 300" : String).data) 7 _ _ _ hocc hmin
  exact h.trans (by decide)

end McpPostgres
